import Mathlib

/-!
Verification of `src/proj.py`, a project-directory picker.

The script is embedded shallowly: every pure computation of `main`
(path manipulation, marker matching, chooser-output parsing) is a Lean
function translated from the Python source, and the effectful skeleton of
`main` is a function `ProjPy.runMain` from an explicit `ProjPy.World`
(the outcomes of the operating-system interactions: environment variables,
the two git subprocess interactions, the directory tree, the chooser run)
to a `ProjPy.RunResult` (exit code, standard output, standard error, the
detached editor launch, or an uncaught Python exception).

`os.path.realpath` is kept abstract as the field `World.real`; the concrete
model `normReal` (lexical normalization, i.e. `realpath` in a symlink-free
filesystem) instantiates it in concrete evaluations.
-/

namespace ProjPy

/-- Split a character list at every character satisfying `p`: the pieces
between separators, in order, empty pieces included, as Python's
`str.split(sep)` produces them. -/
def splitOnP (p : Char → Bool) : List Char → List (List Char)
  | [] => [[]]
  | c :: rest =>
    match splitOnP p rest with
    | [] => [[]]
    | piece :: pieces =>
      if p c then [] :: piece :: pieces else (c :: piece) :: pieces

/-- Split a character list at every `'/'`: the pieces between slashes, in
order, empty pieces included, as Python's `str.split("/")` produces them. -/
def splitSlash : List Char → List (List Char)
  | [] => [[]]
  | c :: rest =>
    match splitSlash rest with
    | [] => [[]]
    | piece :: pieces =>
      if c = '/' then [] :: piece :: pieces else (c :: piece) :: pieces

/-- Join path components with `'/'` (Python `"/".join`). -/
def joinCC : List (List Char) → List Char
  | [] => []
  | [c] => c
  | c :: c2 :: cs => c ++ '/' :: joinCC (c2 :: cs)

/-- A path component that survives `realpath`'s processing untouched:
nonempty, not `"."`, not `".."`, and without a slash. -/
def cleanComp (c : List Char) : Prop :=
  c ≠ [] ∧ c ≠ ['.'] ∧ c ≠ ['.', '.'] ∧ '/' ∉ c

instance (c : List Char) : Decidable (cleanComp c) := by
  unfold cleanComp; infer_instance

/-- Component processing of `os.path.realpath` on an absolute path in a
symlink-free filesystem: empty components and `"."` are dropped, `".."`
removes the previous component (at the root it is a no-op). -/
def resolveDots (acc : List (List Char)) : List (List Char) → List (List Char)
  | [] => acc
  | c :: cs =>
    if c = [] ∨ c = ['.'] then resolveDots acc cs
    else if c = ['.', '.'] then resolveDots acc.dropLast cs
    else resolveDots (acc ++ [c]) cs

/-- Model of `real(p) = os.path.realpath(p)` (`proj.py` line 11) for an
absolute path in a symlink-free filesystem: lexical normalization. -/
def normReal (p : String) : String :=
  ⟨'/' :: joinCC (resolveDots [] (splitSlash p.data))⟩

/-- The absolute path whose components are `cs` (`"/"` when `cs = []`). -/
def absOf (cs : List (List Char)) : String := ⟨'/' :: joinCC cs⟩

/-- `os.path.basename`: everything after the last slash. -/
def pyBasename (p : String) : String :=
  ⟨(p.data.reverse.takeWhile (fun c => c ≠ '/')).reverse⟩

/-- `os.path.dirname`: everything before the last slash, with trailing
slashes stripped unless the head consists only of slashes. -/
def pyDirname (p : String) : String :=
  let headRev := p.data.reverse.dropWhile (fun c => c ≠ '/')
  if headRev.all (fun c => c = '/') then ⟨headRev.reverse⟩
  else ⟨(headRev.dropWhile (fun c => c = '/')).reverse⟩

/-- `os.path.join(a, b)` (posixpath): `b` when `b` is absolute; plain
concatenation when `a` is empty or ends in a slash; otherwise joined
with a slash. -/
def pyJoin (a b : String) : String :=
  if b.data.head? = some '/' then b
  else if a.data = [] ∨ a.data.getLast? = some '/' then ⟨a.data ++ b.data⟩
  else ⟨a.data ++ '/' :: b.data⟩

/-- The nonempty slash-separated components of a path, as
`[x for x in p.split("/") if x]` in `os.path.relpath`. -/
def pathComps (s : String) : List (List Char) :=
  (splitSlash s.data).filter (fun c => c ≠ [])

/-- Length of the longest common prefix of two component lists
(`os.path.commonprefix` on lists). -/
def commonPrefixLen : List (List Char) → List (List Char) → Nat
  | a :: xs, b :: ys => if a = b then commonPrefixLen xs ys + 1 else 0
  | _, _ => 0

/-- `os.path.relpath(path, start)` for normalized absolute arguments (the
script only applies it to outputs of `real`, which are already absolute
and normal, so the `abspath` both arguments go through is the identity). -/
def pyRelpath (path start : String) : String :=
  let p := pathComps path
  let s := pathComps start
  let i := commonPrefixLen s p
  let rel := List.replicate (s.length - i) ['.', '.'] ++ p.drop i
  if rel = [] then "." else ⟨joinCC rel⟩

/-- `short = os.path.relpath(full, root) or "."` (`proj.py` line 97). -/
def shortField (full root : String) : String :=
  if pyRelpath full root = "" then "." else pyRelpath full root

/-- Follows the spec's words for the round-trip property: re-joining a
relative-path field with the resolved root means taking the canonical form
of the path join, to be compared with the candidate's canonical path. -/
def rejoin (root short : String) : String := normReal (pyJoin root short)

/-- One record of the chooser's input: relative path, a tab, absolute
path (`proj.py` line 98). -/
def fzfLine (root full : String) : String := shortField full root ++ "\t" ++ full

/-- Python `str.split()` with no argument: split on whitespace runs,
dropping empty pieces. -/
def splitWS (s : String) : List String :=
  ((splitOnP Char.isWhitespace s.data).filter (fun t => t ≠ [])).map (fun l => ⟨l⟩)

/-- Python `str.splitlines()` for newline-separated text: the pieces
between newlines, without the piece after a terminating newline.  (The
chooser's output never holds the rarer line boundaries `splitlines` also
accepts.) -/
def pySplitlines (s : String) : List String :=
  if s.data = [] then [] else
  (if s.data.getLast? = some '\n' then (splitOnP (fun c => c == '\n') s.data).dropLast
   else splitOnP (fun c => c == '\n') s.data).map (fun l => ⟨l⟩)

/-- Python `str.strip()`: surrounding whitespace removed (the key names
the chooser reports only ever carry the common whitespace characters). -/
def pyStrip (s : String) : String :=
  ⟨((s.data.dropWhile Char.isWhitespace).reverse.dropWhile Char.isWhitespace).reverse⟩

/-- `sel.split("\t", 1)[1]`: everything after the first tab. -/
def afterFirstTab (s : String) : String :=
  ⟨(s.data.dropWhile (fun c => c ≠ '\t')).drop 1⟩

/-- Section 6 of `main` (`proj.py` lines 131-145): fewer than two lines,
or no tab in the second, is malformed (`none`); otherwise the pressed key
(first line, stripped) and the absolute path (second line after the first
tab). -/
def parseSelection (out : String) : Option (String × String) :=
  match pySplitlines out with
  | key :: sel :: _ =>
    if sel.data.contains '\t' then some (pyStrip key, afterFirstTab sel) else none
  | _ => none

/-- Python's `<` on strings, on the character lists: lexicographic by
code point. -/
def ltChars : List Char → List Char → Bool
  | [], [] => false
  | [], _ :: _ => true
  | _ :: _, [] => false
  | x :: xs, y :: ys => if x = y then ltChars xs ys else decide (x < y)

/-- Python's `<` on strings: lexicographic by code point. -/
def strLt (a b : String) : Bool := ltChars a.data b.data

/-- Insert a string into a sorted duplicate-free list, keeping it sorted
and duplicate-free.  `candidates = set(); ...; sorted(candidates)` of
Section 4 is modelled by folding this insertion: a sorted list without
duplicates is exactly determined by its membership, so the fold ends in
`sorted(set(...))`. -/
def insertSorted (x : String) : List String → List String
  | [] => [x]
  | y :: ys =>
    if x = y then y :: ys
    else if strLt x y then x :: y :: ys
    else y :: insertSorted x ys

/-- One iteration of Section 4's scan loop (`proj.py` lines 75-84): when
the basename of `rel` is a marker, add the canonical absolute form of its
containing directory to the candidate set. -/
def candStep (real : String → String) (root : String) (markers : List String)
    (acc : List String) (rel : String) : List String :=
  if markers.contains (pyBasename rel) then
    insertSorted (real (pyJoin root (pyDirname rel))) acc
  else acc

/-- Section 4 of `main` (`proj.py` lines 75-87): the sorted, deduplicated
candidate directories of a file list. -/
def markerCandidates (real : String → String) (root : String)
    (markers : List String) (files : List String) : List String :=
  files.foldl (candStep real root markers) []

/-- The default marker list (`proj.py` lines 45-48). -/
def defaultMarkersStr : String :=
  "package.json go.mod pyproject.toml Cargo.toml BUILD.bazel pom.xml setup.cfg"

/-- A directory tree: named subdirectories and regular file names, in the
iteration order `os.walk` would produce them. -/
inductive FS where
  | node (dirs : List (String × FS)) (files : List String)

/-- Relative path of an entry `f` inside the directory whose path relative
to the root is `pre` (the net effect of
`os.path.relpath(os.path.join(d, f), root)` in the walk loop). -/
def relJoin (pre f : String) : String := if pre = "" then f else pre ++ "/" ++ f

theorem sizeOf_eraseP_le {α : Type} [SizeOf α] (p : α → Bool) (l : List α) :
    sizeOf (l.eraseP p) ≤ sizeOf l := by
  induction l with
  | nil => simp [List.eraseP]
  | cons a l ih =>
    by_cases h : p a
    · simp only [List.eraseP_cons, h, cond_true, List.cons.sizeOf_spec]
      omega
    · simp only [List.eraseP_cons, h, cond_false, List.cons.sizeOf_spec]
      omega

mutual
/-- The fallback walk of Section 3 (`proj.py` lines 66-71): the files of
the current directory, then the subtrees, with the first subdirectory
named `.git` removed before descent (`if ".git" in dirs:
dirs.remove(".git")`).  `pre` is the current directory's path relative to
the root (`""` at the root). -/
def pyWalk (pre : String) : FS → List String
  | FS.node dirs files =>
    files.map (relJoin pre) ++ pyWalkDirs pre (dirs.eraseP (fun d => d.1 == ".git"))
  termination_by t => sizeOf t
  decreasing_by
    simp only [FS.node.sizeOf_spec]
    have h := sizeOf_eraseP_le (fun d : String × FS => d.1 == ".git") dirs
    omega

/-- Walk each named subtree in order. -/
def pyWalkDirs (pre : String) : List (String × FS) → List String
  | [] => []
  | (n, t) :: rest => pyWalk (relJoin pre n) t ++ pyWalkDirs pre rest
  termination_by l => sizeOf l
  decreasing_by
    · simp only [List.cons.sizeOf_spec, Prod.mk.sizeOf_spec]; omega
    · simp only [List.cons.sizeOf_spec]; omega
end

/-- Outcome of the `git ls-files` subprocess of Section 3: its NUL-joined
output, a nonzero exit (`subprocess.CalledProcessError`), or a missing
`git` executable (`FileNotFoundError`). -/
inductive GitLs where
  | ok (raw : String)
  | calledProcessError
  | fileNotFound
deriving DecidableEq

/-- `[f for f in out.decode("utf-8", "ignore").split("\x00") if f]`
(`proj.py` line 64). -/
def parseNul (raw : String) : List String :=
  ((splitOnP (fun c => c == '\x00') raw.data).filter (fun f => f ≠ [])).map (fun l => ⟨l⟩)

/-- Section 3 of `main` (`proj.py` lines 53-71): the primary `git
ls-files` listing when it succeeds; the recursive walk when it fails with
`CalledProcessError`; an uncaught exception when the tool is unavailable,
because the `except` clause only catches `CalledProcessError`. -/
def enumerateFiles (tree : FS) (g : GitLs) : Except String (List String) :=
  match g with
  | GitLs.ok raw => Except.ok (parseNul raw)
  | GitLs.calledProcessError => Except.ok (pyWalk "" tree)
  | GitLs.fileNotFound => Except.error "FileNotFoundError"

/-- The environment variables the script reads. -/
structure Env where
  monorepoRoot : Option String
  projectMarkers : Option String
  fzfBin : Option String

/-- Outcome of the chooser subprocess: its exit status and combined
standard output. -/
structure FzfRun where
  returncode : Int
  out : String

/-- Everything one run of `main` observes from the operating system. -/
structure World where
  /-- `os.path.realpath`. -/
  real : String → String
  env : Env
  /-- Section 1's detection: `some top` when the current directory is in a
  git work tree and `git rev-parse --show-toplevel` printed `top`; `none`
  when any of it failed (the `except` there catches both
  `CalledProcessError` and `FileNotFoundError`) or the answer was not
  `"true"`. -/
  gitDetect : Option String
  gitLs : GitLs
  /-- The directory tree under the resolved root, for the fallback walk. -/
  fsTree : FS
  fzf : FzfRun
  /-- Whether `shutil.which("code")` finds an editor launcher. -/
  codeWhich : Bool
  /-- Whether the detached editor launch would succeed.  `main` never
  inspects it: the `Popen` is fire-and-forget. -/
  codeLaunchOk : Bool

/-- Observable outcome of a run: a `sys.exit` with what was printed and
the detached editor launch (if any), or an uncaught Python exception
(traceback on standard error, nonzero exit, nothing on standard
output). -/
inductive RunResult where
  | exited (code : Nat) (stdout : List String) (stderr : List String)
      (editor : Option String)
  | crashed (exc : String)
deriving DecidableEq

/-- The diagnostic of `proj.py` line 36. -/
def noRootMessage : String := "Not in a git repository and MONOREPO_ROOT not set."

/-- `os.environ.get(key, default)`: the variable's value whenever the
variable is present (even when it is empty), the default otherwise. -/
def envGet (value fallback : Option String) : Option String :=
  match value with
  | some s => some s
  | none => fallback

/-- Section 1's root choice (`proj.py` lines 31-34):
`root = os.environ.get("MONOREPO_ROOT", git_root)` followed by the
`if not root` test, which rejects both `None` and the empty string. -/
def chooseRoot (override detected : Option String) : Option String :=
  match envGet override detected with
  | none => none
  | some r => if r = "" then none else some r

/-- Sections 2-6 of `main`, from the resolved root on. -/
def runFromRoot (w : World) (root : String) : RunResult :=
  match enumerateFiles w.fsTree w.gitLs with
  | Except.error e => RunResult.crashed e
  | Except.ok files =>
    if markerCandidates w.real root
        (splitWS (Option.getD w.env.projectMarkers defaultMarkersStr)) files = [] then
      RunResult.exited 1 [] [] none
    else if w.fzf.returncode ≠ 0 ∨ w.fzf.out = "" then
      RunResult.exited 1 [] [] none
    else
      match parseSelection w.fzf.out with
      | none => RunResult.exited 1 [] [] none
      | some (key, full) =>
        RunResult.exited 0 [full] []
          (if key = "tab" ∧ w.codeWhich = true then some full else none)

/-- The whole of `main`: root resolution, then the rest; when no root can
be determined, the diagnostic goes to standard error and the run exits 1
with nothing on standard output. -/
def runMain (w : World) : RunResult :=
  match chooseRoot w.env.monorepoRoot w.gitDetect with
  | none => RunResult.exited 1 [] [noRootMessage] none
  | some r => runFromRoot w (w.real r)

/-! ### Order facts about `ltChars` -/

theorem ltChars_irrefl (l : List Char) : ltChars l l = false := by
  induction l with
  | nil => rfl
  | cons x xs ih => simp [ltChars, ih]

theorem ltChars_trans {a b c : List Char} (h1 : ltChars a b = true)
    (h2 : ltChars b c = true) : ltChars a c = true := by
  induction a generalizing b c with
  | nil =>
    cases b with
    | nil => simp [ltChars] at h1
    | cons y ys =>
      cases c with
      | nil => simp [ltChars] at h2
      | cons z zs => simp [ltChars]
  | cons x xs ih =>
    cases b with
    | nil => simp [ltChars] at h1
    | cons y ys =>
      cases c with
      | nil => simp [ltChars] at h2
      | cons z zs =>
        simp only [ltChars] at h1 h2 ⊢
        by_cases hxy : x = y
        · subst hxy
          rw [if_pos rfl] at h1
          by_cases hxz : x = z
          · subst hxz
            rw [if_pos rfl] at h2
            rw [if_pos rfl]
            exact ih h1 h2
          · rw [if_neg hxz] at h2
            rw [if_neg hxz]
            exact h2
        · rw [if_neg hxy] at h1
          replace h1 : x < y := of_decide_eq_true h1
          by_cases hyz : y = z
          · subst hyz
            rw [if_neg hxy]
            exact decide_eq_true h1
          · rw [if_neg hyz] at h2
            replace h2 : y < z := of_decide_eq_true h2
            have hxz : x < z := lt_trans h1 h2
            rw [if_neg (ne_of_lt hxz)]
            exact decide_eq_true hxz

theorem ltChars_connex {a b : List Char} (hne : a ≠ b) (h : ltChars a b = false) :
    ltChars b a = true := by
  induction a generalizing b with
  | nil =>
    cases b with
    | nil => exact absurd rfl hne
    | cons y ys => simp [ltChars] at h
  | cons x xs ih =>
    cases b with
    | nil => simp [ltChars]
    | cons y ys =>
      simp only [ltChars] at h ⊢
      by_cases hxy : x = y
      · subst hxy
        rw [if_pos rfl] at h
        rw [if_pos rfl]
        refine ih (fun e => hne ?_) h
        rw [e]
      · rw [if_neg hxy] at h
        replace h : ¬ x < y := of_decide_eq_false h
        rw [if_neg (fun e => hxy e.symm)]
        exact decide_eq_true (lt_of_le_of_ne (not_lt.mp h) (fun e => hxy e.symm))

/-! ### The marker matcher: membership, sortedness, no duplicates -/

theorem mem_insertSorted (x : String) (l : List String) (b : String) :
    b ∈ insertSorted x l ↔ b = x ∨ b ∈ l := by
  induction l with
  | nil => simp [insertSorted]
  | cons y ys ih =>
    by_cases hxy : x = y
    · subst hxy
      unfold insertSorted
      rw [if_pos rfl]
      simp only [List.mem_cons]
      tauto
    · by_cases hlt : strLt x y = true
      · simp only [insertSorted, if_neg hxy, if_pos hlt, List.mem_cons]
      · simp only [insertSorted, if_neg hxy, if_neg hlt, List.mem_cons, ih]
        tauto

/-- The ordering the candidate list carries. -/
def strLtRel (a b : String) : Prop := strLt a b = true

theorem strLtRel_trans {a b c : String} (h1 : strLtRel a b) (h2 : strLtRel b c) :
    strLtRel a c := ltChars_trans h1 h2

theorem sorted_insertSorted (x : String) (l : List String)
    (h : l.Sorted strLtRel) : (insertSorted x l).Sorted strLtRel := by
  induction l with
  | nil => simp [insertSorted]
  | cons y ys ih =>
    rw [List.sorted_cons] at h
    obtain ⟨hy, hys⟩ := h
    by_cases hxy : x = y
    · subst hxy
      simp only [insertSorted, if_pos rfl]
      exact List.sorted_cons.mpr ⟨hy, hys⟩
    · by_cases hlt : strLt x y = true
      · simp only [insertSorted, if_neg hxy, if_pos hlt]
        refine List.sorted_cons.mpr ⟨?_, List.sorted_cons.mpr ⟨hy, hys⟩⟩
        intro b hb
        rcases List.mem_cons.mp hb with hb | hb
        · exact hb ▸ hlt
        · exact strLtRel_trans hlt (hy b hb)
      · simp only [insertSorted, if_neg hxy, if_neg hlt]
        refine List.sorted_cons.mpr ⟨?_, ih hys⟩
        intro b hb
        rcases (mem_insertSorted x ys b).mp hb with hb | hb
        · rw [hb]
          have hfalse : ltChars x.data y.data = false := by
            revert hlt
            unfold strLt
            cases ltChars x.data y.data <;> simp
          exact ltChars_connex (fun e => hxy (congrArg String.mk e)) hfalse
        · exact hy b hb

theorem mem_foldl_candStep (real : String → String) (root : String)
    (markers : List String) (files : List String) (acc : List String) (p : String) :
    p ∈ files.foldl (candStep real root markers) acc ↔
      p ∈ acc ∨ ∃ rel ∈ files, markers.contains (pyBasename rel) = true ∧
        p = real (pyJoin root (pyDirname rel)) := by
  induction files generalizing acc with
  | nil => simp
  | cons rel files ih =>
    rw [List.foldl_cons, ih]
    unfold candStep
    by_cases h : markers.contains (pyBasename rel) = true
    · rw [if_pos h]
      simp only [mem_insertSorted, List.mem_cons]
      constructor
      · rintro (⟨hp | hp⟩ | ⟨q, hq, hq2, hq3⟩)
        · exact Or.inr ⟨rel, Or.inl rfl, h, hp⟩
        · exact Or.inl hp
        · exact Or.inr ⟨q, Or.inr hq, hq2, hq3⟩
      · rintro (hp | ⟨q, hq | hq, hq2, hq3⟩)
        · exact Or.inl (Or.inr hp)
        · exact Or.inl (Or.inl (hq ▸ hq3))
        · exact Or.inr ⟨q, hq, hq2, hq3⟩
    · rw [if_neg h]
      simp only [List.mem_cons]
      constructor
      · rintro (hp | ⟨q, hq, hq2, hq3⟩)
        · exact Or.inl hp
        · exact Or.inr ⟨q, Or.inr hq, hq2, hq3⟩
      · rintro (hp | ⟨q, hq | hq, hq2, hq3⟩)
        · exact Or.inl hp
        · exact absurd (hq ▸ hq2) h
        · exact Or.inr ⟨q, hq, hq2, hq3⟩

theorem sorted_foldl_candStep (real : String → String) (root : String)
    (markers : List String) (files : List String) (acc : List String)
    (h : acc.Sorted strLtRel) :
    (files.foldl (candStep real root markers) acc).Sorted strLtRel := by
  induction files generalizing acc with
  | nil => exact h
  | cons rel files ih =>
    rw [List.foldl_cons]
    apply ih
    unfold candStep
    by_cases hc : markers.contains (pyBasename rel) = true
    · rw [if_pos hc]
      exact sorted_insertSorted _ _ h
    · rw [if_neg hc]
      exact h

theorem mem_markerCandidates (real : String → String) (root : String)
    (markers : List String) (files : List String) (p : String) :
    p ∈ markerCandidates real root markers files ↔
      ∃ rel ∈ files, markers.contains (pyBasename rel) = true ∧
        p = real (pyJoin root (pyDirname rel)) := by
  rw [markerCandidates, mem_foldl_candStep]
  simp

theorem sorted_markerCandidates (real : String → String) (root : String)
    (markers : List String) (files : List String) :
    (markerCandidates real root markers files).Sorted strLtRel :=
  sorted_foldl_candStep real root markers files [] (by simp)

theorem nodup_markerCandidates (real : String → String) (root : String)
    (markers : List String) (files : List String) :
    (markerCandidates real root markers files).Nodup := by
  have h := sorted_markerCandidates real root markers files
  unfold List.Nodup
  refine h.imp ?_
  intro a b hab e
  subst e
  simp [strLtRel, strLt, ltChars_irrefl] at hab

/-! ### Path algebra: `splitSlash`, `joinCC`, `resolveDots` -/

theorem splitSlash_ne_nil (l : List Char) : splitSlash l ≠ [] := by
  induction l with
  | nil => simp [splitSlash]
  | cons c rest ih =>
    rcases h : splitSlash rest with _ | ⟨piece, pieces⟩
    · exact absurd h ih
    · simp only [splitSlash, h]
      by_cases hc : c = '/' <;> simp [hc]

theorem splitSlash_cons_slash (l : List Char) :
    splitSlash ('/' :: l) = [] :: splitSlash l := by
  rcases h : splitSlash l with _ | ⟨piece, pieces⟩
  · exact absurd h (splitSlash_ne_nil l)
  · simp [splitSlash, h]

theorem splitSlash_cons_ne {c : Char} (l : List Char) (hc : c ≠ '/') :
    splitSlash (c :: l) = (c :: (splitSlash l).headI) :: (splitSlash l).tail := by
  rcases h : splitSlash l with _ | ⟨piece, pieces⟩
  · exact absurd h (splitSlash_ne_nil l)
  · simp [splitSlash, h, hc]

theorem splitSlash_append_slash (l1 l2 : List Char) :
    splitSlash (l1 ++ '/' :: l2) = splitSlash l1 ++ splitSlash l2 := by
  induction l1 with
  | nil =>
    rw [List.nil_append, splitSlash_cons_slash]
    rfl
  | cons c rest ih =>
    by_cases hc : c = '/'
    · subst hc
      rw [List.cons_append, splitSlash_cons_slash, splitSlash_cons_slash, ih,
        List.cons_append]
    · rw [List.cons_append, splitSlash_cons_ne _ hc, ih, splitSlash_cons_ne _ hc]
      rcases h : splitSlash rest with _ | ⟨piece, pieces⟩
      · exact absurd h (splitSlash_ne_nil rest)
      · simp [h]

theorem splitSlash_no_slash {l : List Char} (h : '/' ∉ l) : splitSlash l = [l] := by
  induction l with
  | nil => rfl
  | cons c rest ih =>
    have hc : c ≠ '/' := fun e => h (e ▸ List.mem_cons_self c rest)
    have hr : '/' ∉ rest := fun hm => h (List.mem_cons_of_mem c hm)
    rw [splitSlash_cons_ne _ hc, ih hr]
    simp

theorem joinCC_cons_of_ne_nil (c : List Char) {cs : List (List Char)} (h : cs ≠ []) :
    joinCC (c :: cs) = c ++ '/' :: joinCC cs := by
  rcases cs with _ | ⟨c2, cs2⟩
  · exact absurd rfl h
  · rfl

theorem joinCC_ne_nil {cs : List (List Char)} (h : cs ≠ []) (h2 : ∀ c ∈ cs, c ≠ []) :
    joinCC cs ≠ [] := by
  rcases cs with _ | ⟨c, cs2⟩
  · exact absurd rfl h
  · rcases cs2 with _ | ⟨c2, cs3⟩
    · exact h2 c (by simp)
    · rw [joinCC_cons_of_ne_nil c (by simp)]
      rcases c with _ | ⟨ch, cr⟩ <;> simp

theorem splitSlash_joinCC {cs : List (List Char)} (h : cs ≠ [])
    (h2 : ∀ c ∈ cs, '/' ∉ c) : splitSlash (joinCC cs) = cs := by
  induction cs with
  | nil => exact absurd rfl h
  | cons c cs2 ih =>
    rcases cs2 with _ | ⟨c2, cs3⟩
    · exact splitSlash_no_slash (h2 c (by simp))
    · rw [joinCC_cons_of_ne_nil c (by simp), splitSlash_append_slash,
        splitSlash_no_slash (h2 c (by simp)),
        ih (by simp) (fun d hd => h2 d (List.mem_cons_of_mem c hd))]
      rfl

theorem joinCC_concat {cs : List (List Char)} (c : List Char) (h : cs ≠ []) :
    joinCC (cs ++ [c]) = joinCC cs ++ '/' :: c := by
  induction cs with
  | nil => exact absurd rfl h
  | cons d cs2 ih =>
    rcases cs2 with _ | ⟨c2, cs3⟩
    · rfl
    · rw [List.cons_append, joinCC_cons_of_ne_nil d (by simp),
        joinCC_cons_of_ne_nil d (by simp), ih (by simp)]
      simp

theorem joinCC_head_ne_slash {cs : List (List Char)} (h2 : ∀ c ∈ cs, cleanComp c) :
    (joinCC cs).head? ≠ some '/' := by
  rcases cs with _ | ⟨c, cs2⟩
  · simp [joinCC]
  · obtain ⟨hne, _, _, hns⟩ := h2 c (by simp)
    rcases c with _ | ⟨ch, cr⟩
    · exact absurd rfl hne
    · have hch : ch ≠ '/' := fun e => hns (e ▸ List.mem_cons_self ch cr)
      rcases cs2 with _ | ⟨c2, cs3⟩
      · show ((ch :: cr : List Char)).head? ≠ some '/'
        simpa using hch
      · rw [joinCC_cons_of_ne_nil _ (by simp)]
        simpa using hch

theorem joinCC_getLast {cs : List (List Char)} (h2 : ∀ c ∈ cs, cleanComp c)
    (hne : cs ≠ []) : ∃ x, x ≠ '/' ∧ (joinCC cs).getLast? = some x := by
  induction cs with
  | nil => exact absurd rfl hne
  | cons c cs2 ih =>
    rcases cs2 with _ | ⟨c2, cs3⟩
    · obtain ⟨hce, _, _, hns⟩ := h2 c (by simp)
      exact ⟨c.getLast hce, fun e => hns (e ▸ List.getLast_mem hce),
        List.getLast?_eq_getLast c hce⟩
    · obtain ⟨x, hx, hxl⟩ := ih (fun d hd => h2 d (List.mem_cons_of_mem c hd)) (by simp)
      refine ⟨x, hx, ?_⟩
      rw [joinCC_cons_of_ne_nil c (by simp),
        show ('/' :: joinCC (c2 :: cs3)) = ['/'] ++ joinCC (c2 :: cs3) from rfl,
        ← List.append_assoc, List.getLast?_append, hxl]
      rfl

theorem resolveDots_cons (acc : List (List Char)) (c : List Char)
    (cs : List (List Char)) :
    resolveDots acc (c :: cs) =
      if c = [] ∨ c = ['.'] then resolveDots acc cs
      else if c = ['.', '.'] then resolveDots acc.dropLast cs
      else resolveDots (acc ++ [c]) cs := rfl

theorem resolveDots_append (acc xs ys : List (List Char)) :
    resolveDots acc (xs ++ ys) = resolveDots (resolveDots acc xs) ys := by
  induction xs generalizing acc with
  | nil => rfl
  | cons c xs ih =>
    rw [List.cons_append, resolveDots_cons, resolveDots_cons]
    split_ifs
    · exact ih acc
    · exact ih acc.dropLast
    · exact ih (acc ++ [c])

theorem resolveDots_clean {cs : List (List Char)} (h : ∀ c ∈ cs, cleanComp c)
    (acc : List (List Char)) : resolveDots acc cs = acc ++ cs := by
  induction cs generalizing acc with
  | nil => simp [resolveDots]
  | cons c cs2 ih =>
    obtain ⟨h1, h2, h3, _⟩ := h c (by simp)
    rw [resolveDots_cons, if_neg (by simp [h1, h2]), if_neg h3,
      ih (fun d hd => h d (List.mem_cons_of_mem c hd))]
    simp

theorem resolveDots_nil_cons (cs : List (List Char)) (acc : List (List Char)) :
    resolveDots acc ([] :: cs) = resolveDots acc cs := by
  rw [resolveDots_cons, if_pos (Or.inl rfl)]

theorem resolveDots_dot (acc : List (List Char)) (cs : List (List Char)) :
    resolveDots acc (['.'] :: cs) = resolveDots acc cs := by
  rw [resolveDots_cons, if_pos (Or.inr rfl)]

theorem normReal_mk (l : List Char) :
    normReal ⟨l⟩ = ⟨'/' :: joinCC (resolveDots [] (splitSlash l))⟩ := rfl

theorem pyJoin_mk (a b : List Char) :
    pyJoin ⟨a⟩ ⟨b⟩ = if b.head? = some '/' then ⟨b⟩
      else if a = [] ∨ a.getLast? = some '/' then ⟨a ++ b⟩
      else ⟨a ++ '/' :: b⟩ := rfl

theorem absOf_data_cond {rs : List (List Char)} (hrs : ∀ c ∈ rs, cleanComp c)
    (hrs0 : rs ≠ []) :
    ¬(('/' :: joinCC rs) = [] ∨ ('/' :: joinCC rs).getLast? = some '/') := by
  obtain ⟨x, hx, hxl⟩ := joinCC_getLast hrs hrs0
  rintro (h | h)
  · exact List.cons_ne_nil _ _ h
  · rw [show ('/' :: joinCC rs : List Char) = ['/'] ++ joinCC rs from rfl,
      List.getLast?_append, hxl] at h
    simp at h
    exact hx h

/-- The canonical form of joining a normal absolute path with a relative
path built from clean components: the components concatenate. -/
theorem normReal_pyJoin_comps {rs ds : List (List Char)}
    (hrs : ∀ c ∈ rs, cleanComp c) (hds : ∀ c ∈ ds, cleanComp c) :
    normReal (pyJoin (absOf rs) ⟨joinCC ds⟩) = absOf (rs ++ ds) := by
  have hsplitJ : resolveDots [] ([] :: splitSlash (joinCC ds)) = ds := by
    by_cases hd : ds = []
    · subst hd
      rfl
    · rw [splitSlash_joinCC hd (fun c hc => (hds c hc).2.2.2), resolveDots_nil_cons,
        resolveDots_clean hds]
      rfl
  have hsplitRD : resolveDots [] ([] :: (rs ++ splitSlash (joinCC ds))) = rs ++ ds := by
    by_cases hd : ds = []
    · subst hd
      rw [show splitSlash (joinCC ([] : List (List Char))) = [[]] from rfl,
        resolveDots_nil_cons, resolveDots_append, resolveDots_clean hrs,
        resolveDots_nil_cons]
      simp [resolveDots]
    · rw [splitSlash_joinCC hd (fun c hc => (hds c hc).2.2.2), resolveDots_nil_cons,
        resolveDots_append, resolveDots_clean hrs, resolveDots_clean hds]
      simp
  by_cases hrs0 : rs = []
  · subst hrs0
    have hcond : (['/'] : List Char) = [] ∨ (['/'] : List Char).getLast? = some '/' :=
      Or.inr (by decide)
    have h1 : pyJoin (absOf []) ⟨joinCC ds⟩ = ⟨'/' :: joinCC ds⟩ := by
      rw [show absOf [] = (⟨['/']⟩ : String) from rfl, pyJoin_mk,
        if_neg (joinCC_head_ne_slash hds), if_pos hcond]
      rfl
    rw [h1, normReal_mk, splitSlash_cons_slash, hsplitJ]
    rfl
  · have h1 : pyJoin (absOf rs) ⟨joinCC ds⟩ = ⟨('/' :: joinCC rs) ++ '/' :: joinCC ds⟩ := by
      rw [show absOf rs = (⟨'/' :: joinCC rs⟩ : String) from rfl, pyJoin_mk,
        if_neg (joinCC_head_ne_slash hds), if_neg (absOf_data_cond hrs hrs0)]
    rw [h1, normReal_mk,
      show (('/' :: joinCC rs) ++ '/' :: joinCC ds : List Char) =
        '/' :: (joinCC rs ++ '/' :: joinCC ds) from rfl,
      splitSlash_cons_slash, splitSlash_append_slash,
      splitSlash_joinCC hrs0 (fun c hc => (hrs c hc).2.2.2), hsplitRD]
    rfl

/-- `normReal (pyJoin root ".") = root` for a normal absolute root. -/
theorem normReal_pyJoin_dot {rs : List (List Char)} (hrs : ∀ c ∈ rs, cleanComp c) :
    normReal (pyJoin (absOf rs) ".") = absOf rs := by
  by_cases hrs0 : rs = []
  · subst hrs0
    rfl
  · have h1 : pyJoin (absOf rs) "." = ⟨('/' :: joinCC rs) ++ '/' :: ['.']⟩ := by
      rw [show ("." : String) = (⟨['.']⟩ : String) from rfl,
        show absOf rs = (⟨'/' :: joinCC rs⟩ : String) from rfl, pyJoin_mk,
        if_neg (by decide), if_neg (absOf_data_cond hrs hrs0)]
    rw [h1, normReal_mk,
      show (('/' :: joinCC rs) ++ '/' :: ['.'] : List Char) =
        '/' :: (joinCC rs ++ '/' :: ['.']) from rfl,
      splitSlash_cons_slash, splitSlash_append_slash,
      splitSlash_joinCC hrs0 (fun c hc => (hrs c hc).2.2.2),
      show splitSlash ['.'] = [['.']] from rfl,
      resolveDots_nil_cons, resolveDots_append, resolveDots_clean hrs,
      resolveDots_dot]
    rfl

theorem pathComps_absOf {cs : List (List Char)} (h : ∀ c ∈ cs, cleanComp c) :
    pathComps (absOf cs) = cs := by
  by_cases h0 : cs = []
  · subst h0
    rfl
  · unfold pathComps
    rw [show (absOf cs).data = '/' :: joinCC cs from rfl, splitSlash_cons_slash,
      splitSlash_joinCC h0 (fun c hc => (h c hc).2.2.2),
      List.filter_cons_of_neg (by decide)]
    refine List.filter_eq_self.mpr ?_
    intro a ha
    exact decide_eq_true ((h a ha).1)

theorem commonPrefixLen_self (rs ds : List (List Char)) :
    commonPrefixLen rs (rs ++ ds) = rs.length := by
  induction rs with
  | nil => rfl
  | cons r rs2 ih => simp [commonPrefixLen, ih]

theorem pyRelpath_absOf {rs ds : List (List Char)} (hrs : ∀ c ∈ rs, cleanComp c)
    (hds : ∀ c ∈ ds, cleanComp c) :
    pyRelpath (absOf (rs ++ ds)) (absOf rs) = if ds = [] then "." else ⟨joinCC ds⟩ := by
  have hclean : ∀ c ∈ rs ++ ds, cleanComp c := by
    intro c hc
    rcases List.mem_append.mp hc with hc | hc
    · exact hrs c hc
    · exact hds c hc
  unfold pyRelpath
  simp only [pathComps_absOf hclean, pathComps_absOf hrs, commonPrefixLen_self,
    Nat.sub_self, List.replicate_zero, List.nil_append, List.drop_left]

theorem pyDirname_mk (l : List Char) :
    pyDirname ⟨l⟩ =
      if (l.reverse.dropWhile (fun c => c ≠ '/')).all (fun c => c = '/') then
        ⟨(l.reverse.dropWhile (fun c => c ≠ '/')).reverse⟩
      else
        ⟨((l.reverse.dropWhile (fun c => c ≠ '/')).dropWhile (fun c => c = '/')).reverse⟩ :=
  rfl

/-- `os.path.dirname` drops the last component of a clean relative path. -/
theorem pyDirname_joinCC {comps : List (List Char)} (h : ∀ c ∈ comps, cleanComp c)
    (h0 : comps ≠ []) : pyDirname ⟨joinCC comps⟩ = ⟨joinCC comps.dropLast⟩ := by
  obtain ⟨cs, c, rfl⟩ : ∃ cs c, comps = cs ++ [c] :=
    ⟨comps.dropLast, comps.getLast h0, (List.dropLast_concat_getLast h0).symm⟩
  rw [List.dropLast_concat]
  obtain ⟨hce, _, _, hns⟩ := h c (by simp)
  have hcrev : ∀ a ∈ c.reverse, (fun x => decide (x ≠ '/')) a = true := by
    intro a ha
    exact decide_eq_true (fun e => hns (e ▸ List.mem_reverse.mp ha))
  by_cases hcs : cs = []
  · subst hcs
    rw [show joinCC ([] ++ [c]) = c from rfl, pyDirname_mk]
    have hdw : c.reverse.dropWhile (fun x => x ≠ '/') = [] :=
      List.dropWhile_eq_nil_iff.mpr (fun a ha =>
        decide_eq_true (fun e => hns (e ▸ List.mem_reverse.mp ha)))
    rw [hdw]
    simp [joinCC]
  · have hcsclean : ∀ d ∈ cs, cleanComp d := fun d hd => h d (List.mem_append_left _ hd)
    have hj : joinCC cs ≠ [] := joinCC_ne_nil hcs (fun d hd => (hcsclean d hd).1)
    obtain ⟨x, hx, hxl⟩ := joinCC_getLast hcsclean hcs
    rw [joinCC_concat c hcs, pyDirname_mk]
    have hrev : (joinCC cs ++ '/' :: c).reverse = c.reverse ++ '/' :: (joinCC cs).reverse := by
      rw [List.reverse_append, List.reverse_cons, List.append_assoc]
      rfl
    have hsl1 : ¬ (decide ('/' ≠ '/') = true) := by decide
    have hsl2 : decide ('/' = '/') = true := by decide
    rw [hrev, List.dropWhile_append_of_pos hcrev, List.dropWhile_cons,
      if_neg hsl1]
    have hall : ¬ (('/' :: (joinCC cs).reverse).all (fun x => decide (x = '/')) = true) := by
      rw [List.all_eq_true]
      intro hAll
      have hxmem : x ∈ ('/' :: (joinCC cs).reverse) :=
        List.mem_cons_of_mem _ (List.mem_reverse.mpr (List.mem_of_getLast?_eq_some hxl))
      exact hx (of_decide_eq_true (hAll x hxmem))
    rw [if_neg hall, List.dropWhile_cons, if_pos hsl2]
    rcases hrv : (joinCC cs).reverse with _ | ⟨y, ys⟩
    · exact absurd (List.reverse_eq_nil_iff.mp hrv) hj
    · have hy : y = x := by
        have h1 : (joinCC cs).getLast? = some y := by
          rw [List.getLast?_eq_head?_reverse, hrv]
          rfl
        rw [hxl] at h1
        exact (Option.some.inj h1).symm
      rw [List.dropWhile_cons, if_neg (by simp [hy, hx]), ← hrv, List.reverse_reverse]

/-! ### Concrete worlds for evaluating the theorems on explicit inputs -/

/-- A run with override `/repo`, a one-file git listing, a chooser that
reported the `tab` key on `a`, and an available editor launcher. -/
def baseWorld : World where
  real := normReal
  env := { monorepoRoot := some "/repo", projectMarkers := none, fzfBin := none }
  gitDetect := none
  gitLs := GitLs.ok "a/package.json"
  fsTree := FS.node [] []
  fzf := { returncode := 0, out := "tab\na\t/repo/a\n" }
  codeWhich := true
  codeLaunchOk := true

/-- A directory tree holding one project, for the fallback walk. -/
def cexTree : FS := FS.node [("a", FS.node [] ["package.json"])] []

def W2 : World := { baseWorld with gitLs := GitLs.fileNotFound, fsTree := cexTree }

def W3 : World := { baseWorld with gitDetect := some "/elsewhere" }

def W4 : World := { baseWorld with fzf := { returncode := 0, out := "onlyone" } }

def W5 : World := { baseWorld with gitLs := GitLs.ok "notes.txt" }

def W6 : World := { baseWorld with fzf := { returncode := 130, out := "" } }

def W8 : World :=
  { baseWorld with env := { monorepoRoot := none, projectMarkers := none, fzfBin := none } }

def W10 : World :=
  { baseWorld with
    env := { monorepoRoot := some "", projectMarkers := none, fzfBin := none },
    gitDetect := some "/g" }

/-! ### Frame facts about unread fields -/

theorem runFromRoot_gitDetect (w : World) (g : Option String) (root : String) :
    runFromRoot { w with gitDetect := g } root = runFromRoot w root := by
  rcases w with ⟨re, env, gd, gls, tr, fz, cw, cl⟩
  rfl

theorem runMain_codeLaunch (w : World) (b : Bool) :
    runMain { w with codeLaunchOk := b } = runMain w := by
  rcases w with ⟨re, env, gd, gls, tr, fz, cw, cl⟩
  rfl

/-! ### The claims -/

/-- C1: for every file list and marker set, the Marker Matcher adds, for each
file whose final path component is a member of the marker set, the canonical
absolute form of its containing directory to a set — the collection is
duplicate-free, so multiple distinct markers in one directory yield exactly
one candidate — and the final candidate collection is that set sorted
lexicographically by canonical path string; in particular, on the file list
`["a/package.json", "a/sub/go.mod", "b/Cargo.toml"]` with the default
markers under root `/r`, the candidates are exactly
`["/r/a", "/r/a/sub", "/r/b"]` in sorted order. -/
theorem markerMatcher_spec :
    (∀ (real : String → String) (root : String) (markers files : List String)
      (p : String),
      p ∈ markerCandidates real root markers files ↔
        ∃ rel ∈ files, markers.contains (pyBasename rel) = true ∧
          p = real (pyJoin root (pyDirname rel))) ∧
    (∀ (real : String → String) (root : String) (markers files : List String),
      (markerCandidates real root markers files).Sorted strLtRel ∧
      (markerCandidates real root markers files).Nodup) ∧
    markerCandidates normReal "/r" (splitWS defaultMarkersStr)
      ["a/package.json", "a/sub/go.mod", "b/Cargo.toml"] =
      ["/r/a", "/r/a/sub", "/r/b"] :=
  ⟨mem_markerCandidates,
   fun real root markers files =>
    ⟨sorted_markerCandidates real root markers files,
     nodup_markerCandidates real root markers files⟩,
   by decide⟩

/-- C2 (amended): exactly one of the two enumeration strategies executes when
the primary listing either succeeds or exits nonzero — the primary result is
used as given, and the fallback recursive walk (which prunes the `.git`
entry before descent, so the walk never depends on that subtree, and
collects every regular file's path relative to root) is used exactly when
the primary fails with a called-process error; when the version-control tool
is unavailable, the `FileNotFoundError` is not caught at this site, so the
run terminates with an uncaught exception instead of walking. -/
theorem enumeration_strategy :
    (∀ (t : FS) (raw : String),
      enumerateFiles t (GitLs.ok raw) = Except.ok (parseNul raw)) ∧
    (∀ t : FS, enumerateFiles t GitLs.calledProcessError = Except.ok (pyWalk "" t)) ∧
    (∀ t : FS, enumerateFiles t GitLs.fileNotFound = Except.error "FileNotFoundError") ∧
    (∀ (w : World) (root : String),
      runFromRoot { w with gitLs := GitLs.fileNotFound } root =
        RunResult.crashed "FileNotFoundError") ∧
    (∀ (pre : String) (s1 s2 : FS) (dirs : List (String × FS)) (files : List String),
      pyWalk pre (FS.node ((".git", s1) :: dirs) files) =
        pyWalk pre (FS.node ((".git", s2) :: dirs) files)) ∧
    (∀ (pre : String) (dirs : List (String × FS)) (files : List String),
      (files.map (relJoin pre)).Sublist (pyWalk pre (FS.node dirs files))) := by
  refine ⟨fun t raw => rfl, fun t => rfl, fun t => rfl, fun w root => ?_, ?_, ?_⟩
  · rcases w with ⟨re, env, gd, gls, tr, fz, cw, cl⟩
    rfl
  · intro pre s1 s2 dirs files
    simp [pyWalk, List.eraseP_cons]
  · intro pre dirs files
    simp only [pyWalk]
    exact List.sublist_append_left _ _

/-- C2 (counterexample): the claim that the fallback walk runs whenever the
primary fails "including the case of the version-control tool being
unavailable" is false: on tool-unavailable the enumeration is not the walk's
output but an error, and a run with a valid override root crashes with the
uncaught `FileNotFoundError`, scanning nothing. -/
theorem enumeration_unavailable_cex :
    enumerateFiles cexTree GitLs.fileNotFound ≠ Except.ok (pyWalk "" cexTree) ∧
    runMain W2 = RunResult.crashed "FileNotFoundError" := by
  constructor
  · intro h
    exact Except.noConfusion h
  · rfl

/-- C3: when the root override is present (and nonempty), it takes precedence
over the detected value regardless of whether detection succeeded — the
whole run is a function of the override, independent of the detected value —
and the chosen value is resolved with `real` (the canonical symlink-resolved
absolute form) before use. -/
theorem rootOverride_precedence (w : World) (v : String)
    (hset : w.env.monorepoRoot = some v) (hne : v ≠ "") :
    runMain w = runFromRoot w (w.real v) ∧
      ∀ g : Option String, runMain { w with gitDetect := g } = runMain w := by
  have hchoose : ∀ d : Option String, chooseRoot (some v) d = some v := by
    intro d
    show (if v = "" then (none : Option String) else some v) = some v
    rw [if_neg hne]
  constructor
  · unfold runMain
    rw [hset, hchoose]
  · intro g
    rcases w with ⟨re, env, gd, gls, tr, fz, cw, cl⟩
    have hset2 : env.monorepoRoot = some v := hset
    unfold runMain
    dsimp only
    rw [hset2, hchoose, hchoose]
    exact runFromRoot_gitDetect ⟨re, env, gd, gls, tr, fz, cw, cl⟩ g (re v)

/-- C3 (witness): at a concrete world whose override is `/repo` and whose
detection reports `/elsewhere`, the run equals the run from the
canonicalized override and does not change under any detected value. -/
theorem rootOverride_precedence_witness :
    runMain W3 = runFromRoot W3 (W3.real "/repo") ∧
      ∀ g : Option String, runMain { W3 with gitDetect := g } = runMain W3 :=
  rootOverride_precedence W3 "/repo" rfl (by decide)

/-- C4: for every chooser output reaching the parser, fewer than two lines,
or a second line without a tab, terminates the run with exit 1 and nothing
on standard output; otherwise the action key is the first line stripped of
surrounding whitespace and standard output receives exactly the second
line's content after the first tab, and only that. -/
theorem selection_parsing (w : World) (r : String) (files : List String)
    (h1 : chooseRoot w.env.monorepoRoot w.gitDetect = some r)
    (h2 : enumerateFiles w.fsTree w.gitLs = Except.ok files)
    (h3 : markerCandidates w.real (w.real r)
      (splitWS (Option.getD w.env.projectMarkers defaultMarkersStr)) files ≠ [])
    (h4 : w.fzf.returncode = 0) (h5 : w.fzf.out ≠ "") :
    (parseSelection w.fzf.out = none → runMain w = RunResult.exited 1 [] [] none) ∧
    (∀ (key sel : String) (rest : List String),
      pySplitlines w.fzf.out = key :: sel :: rest → sel.data.contains '\t' = true →
      runMain w = RunResult.exited 0 [afterFirstTab sel] []
        (if pyStrip key = "tab" ∧ w.codeWhich = true then some (afterFirstTab sel)
         else none)) ∧
    (∀ out : String, (pySplitlines out).length < 2 → parseSelection out = none) ∧
    (∀ (out key sel : String) (rest : List String),
      pySplitlines out = key :: sel :: rest → sel.data.contains '\t' = false →
      parseSelection out = none) := by
  have hrun : runMain w =
      match parseSelection w.fzf.out with
      | none => RunResult.exited 1 [] [] none
      | some (key, full) => RunResult.exited 0 [full] []
          (if key = "tab" ∧ w.codeWhich = true then some full else none) := by
    simp only [runMain, h1, runFromRoot, h2]
    rw [if_neg h3, if_neg (not_or.mpr ⟨fun hno => hno h4, h5⟩)]
  refine ⟨?_, ?_, ?_, ?_⟩
  · intro hp
    rw [hrun, hp]
  · intro key sel rest hsplit htab
    have hp : parseSelection w.fzf.out = some (pyStrip key, afterFirstTab sel) := by
      unfold parseSelection
      rw [hsplit]
      show (if sel.data.contains '\t' = true then some (pyStrip key, afterFirstTab sel)
        else none) = some (pyStrip key, afterFirstTab sel)
      rw [if_pos htab]
    rw [hrun, hp]
  · intro out hlen
    unfold parseSelection
    rcases hsp : pySplitlines out with _ | ⟨k, rest⟩
    · rfl
    · rcases rest with _ | ⟨s, rest2⟩
      · rfl
      · rw [hsp] at hlen
        simp only [List.length_cons] at hlen
        omega
  · intro out key sel rest hsplit htab
    unfold parseSelection
    rw [hsplit]
    show (if sel.data.contains '\t' = true then some (pyStrip key, afterFirstTab sel)
      else none) = none
    rw [if_neg (by rw [htab]; exact Bool.false_ne_true)]

/-- C4 (witness): a one-line chooser output is malformed, so a run that
reaches the parser with it exits 1 with nothing on standard output. -/
theorem selection_parsing_witness :
    runMain W4 = RunResult.exited 1 [] [] none :=
  (selection_parsing W4 "/repo" ["a/package.json"] rfl rfl (by decide) rfl
    (by decide)).1 (by decide)

/-- C5: if the marker scan produces an empty candidate set, the process
exits with a nonzero status and writes nothing to standard output. -/
theorem noProjects_exit (w : World) (r : String) (files : List String)
    (h1 : chooseRoot w.env.monorepoRoot w.gitDetect = some r)
    (h2 : enumerateFiles w.fsTree w.gitLs = Except.ok files)
    (h3 : markerCandidates w.real (w.real r)
      (splitWS (Option.getD w.env.projectMarkers defaultMarkersStr)) files = []) :
    runMain w = RunResult.exited 1 [] [] none := by
  simp only [runMain, h1, runFromRoot, h2]
  rw [if_pos h3]

/-- C5 (witness): a listing with no marker file yields no candidates, and
the run exits 1 printing nothing. -/
theorem noProjects_exit_witness : runMain W5 = RunResult.exited 1 [] [] none :=
  noProjects_exit W5 "/repo" ["notes.txt"] rfl rfl (by decide)

/-- C6: a chooser run with nonzero exit status or empty output is treated as
user cancellation: the run terminates with a nonzero status and nothing on
standard output. -/
theorem chooserCancel_exit (w : World) (r : String) (files : List String)
    (h1 : chooseRoot w.env.monorepoRoot w.gitDetect = some r)
    (h2 : enumerateFiles w.fsTree w.gitLs = Except.ok files)
    (h3 : markerCandidates w.real (w.real r)
      (splitWS (Option.getD w.env.projectMarkers defaultMarkersStr)) files ≠ [])
    (h4 : w.fzf.returncode ≠ 0 ∨ w.fzf.out = "") :
    runMain w = RunResult.exited 1 [] [] none := by
  simp only [runMain, h1, runFromRoot, h2]
  rw [if_neg h3, if_pos h4]

/-- C6 (witness): a chooser dismissed with exit status 130 and empty output
cancels the run: exit 1, nothing printed. -/
theorem chooserCancel_exit_witness : runMain W6 = RunResult.exited 1 [] [] none :=
  chooserCancel_exit W6 "/repo" ["a/package.json"] rfl rfl (by decide)
    (Or.inl (by decide))

/-- C7: on a successful selection the detached editor launch is attempted
exactly when the action key equals `tab` and an editor launcher is on the
search path, pointed at the chosen path; and whether the launch would
succeed never alters the printed path or the exit status (the run ignores
`codeLaunchOk`). -/
theorem editorLaunch_frame (w : World) (r key full : String) (files : List String)
    (h1 : chooseRoot w.env.monorepoRoot w.gitDetect = some r)
    (h2 : enumerateFiles w.fsTree w.gitLs = Except.ok files)
    (h3 : markerCandidates w.real (w.real r)
      (splitWS (Option.getD w.env.projectMarkers defaultMarkersStr)) files ≠ [])
    (h4 : w.fzf.returncode = 0) (h5 : w.fzf.out ≠ "")
    (h6 : parseSelection w.fzf.out = some (key, full)) :
    runMain w = RunResult.exited 0 [full] []
      (if key = "tab" ∧ w.codeWhich = true then some full else none) ∧
    ∀ b : Bool, runMain { w with codeLaunchOk := b } = runMain w := by
  constructor
  · simp only [runMain, h1, runFromRoot, h2]
    rw [if_neg h3, if_neg (not_or.mpr ⟨fun hno => hno h4, h5⟩), h6]
  · intro b
    exact runMain_codeLaunch w b

/-- C7 (witness): with chooser output `"tab\na\t/repo/a"` and an available
editor launcher, standard output is exactly `/repo/a`, the detached launch
is attempted for `/repo/a`, and flipping the launch outcome changes
nothing. -/
theorem editorLaunch_frame_witness :
    runMain baseWorld = RunResult.exited 0 ["/repo/a"] [] (some "/repo/a") ∧
    runMain { baseWorld with codeLaunchOk := false } = runMain baseWorld := by
  have h := editorLaunch_frame baseWorld "/repo" "tab" "/repo/a" ["a/package.json"]
    rfl rfl (by decide) rfl (by decide) (by decide)
  exact ⟨by rw [h.1]; rfl, h.2 false⟩

/-- C8: when neither a root override nor a successful detection is
available, the run reports the condition on standard error and exits 1 with
nothing on standard output; no further work happens — the outcome does not
depend on the listing, the tree, the chooser or the editor fields. -/
theorem noRoot_exit (w : World) (h1 : w.env.monorepoRoot = none)
    (h2 : w.gitDetect = none) :
    runMain w = RunResult.exited 1 [] [noRootMessage] none ∧
      ∀ (g : GitLs) (t : FS) (f : FzfRun) (c : Bool),
        runMain { w with gitLs := g, fsTree := t, fzf := f, codeWhich := c } =
          RunResult.exited 1 [] [noRootMessage] none := by
  rcases w with ⟨re, env, gd, gls, tr, fz, cw, cl⟩
  have h1x : env.monorepoRoot = none := h1
  have h2x : gd = none := h2
  subst h2x
  constructor
  · unfold runMain
    dsimp only
    rw [h1x]
    rfl
  · intro g t f c
    unfold runMain
    dsimp only
    rw [h1x]
    rfl

/-- C8 (witness): no override and failed detection give the diagnostic,
exit 1 and an empty standard output, whatever the other fields hold. -/
theorem noRoot_exit_witness :
    runMain W8 = RunResult.exited 1 [] [noRootMessage] none ∧
      ∀ (g : GitLs) (t : FS) (f : FzfRun) (c : Bool),
        runMain { W8 with gitLs := g, fsTree := t, fzf := f, codeWhich := c } =
          RunResult.exited 1 [] [noRootMessage] none :=
  noRoot_exit W8 rfl rfl

/-- C9: for every candidate in the final set, its relative-path field (the
literal `"."` exactly when the candidate equals the root) re-joined with
the resolved root — the canonical form of the path join — reconstructs the
candidate's canonical absolute path.  Roots are normal absolute paths and
file entries clean relative paths, the forms `real` produces in a
symlink-free filesystem. -/
theorem roundTrip_candidates (rs : List (List Char)) (markers files : List String)
    (hrs : ∀ c ∈ rs, cleanComp c)
    (hfiles : ∀ rel ∈ files, ∃ comps, comps ≠ [] ∧ (∀ c ∈ comps, cleanComp c) ∧
      rel = ⟨joinCC comps⟩) :
    ∀ full ∈ markerCandidates normReal (absOf rs) markers files,
      rejoin (absOf rs) (shortField full (absOf rs)) = full := by
  intro full hfull
  obtain ⟨rel, hrel, hmark, hfe⟩ :=
    (mem_markerCandidates normReal (absOf rs) markers files full).mp hfull
  obtain ⟨comps, hc0, hcc, hrc⟩ := hfiles rel hrel
  subst hrc
  have hds : ∀ c ∈ comps.dropLast, cleanComp c :=
    fun c hc => hcc c (List.dropLast_subset _ hc)
  rw [pyDirname_joinCC hcc hc0, normReal_pyJoin_comps hrs hds] at hfe
  subst hfe
  unfold shortField
  rw [pyRelpath_absOf hrs hds]
  by_cases hdl : comps.dropLast = []
  · have hne : ("." : String) ≠ "" := by decide
    rw [if_pos hdl, if_neg hne]
    unfold rejoin
    rw [normReal_pyJoin_dot hrs, hdl, List.append_nil]
  · have hjoin : joinCC comps.dropLast ≠ [] :=
      joinCC_ne_nil hdl (fun c hc => (hds c hc).1)
    have hne : (⟨joinCC comps.dropLast⟩ : String) ≠ "" := by
      intro e
      exact hjoin (congrArg String.data e)
    rw [if_neg hdl, if_neg hne]
    unfold rejoin
    exact normReal_pyJoin_comps hrs hds

/-- C9 (witness): under root `/r` with file `a/package.json`, the candidate
`/r/a` has relative field `a`, and re-joining reconstructs `/r/a`. -/
theorem roundTrip_candidates_witness :
    rejoin (absOf [['r']]) (shortField "/r/a" (absOf [['r']])) = "/r/a" := by
  refine roundTrip_candidates [['r']] (splitWS defaultMarkersStr) ["a/package.json"]
    (by decide) ?_ "/r/a" (by decide)
  intro rel hrel
  obtain rfl : rel = "a/package.json" := List.mem_singleton.mp hrel
  exact ⟨[['a'], ("package.json" : String).data], by decide, by decide, by decide⟩

/-- C10: a root override set to the empty string shadows the detected value
and is then treated as absent: even with a successful detection, the run
takes the no-root path — diagnostic on standard error, exit status 1,
nothing on standard output. -/
theorem emptyOverride_exit (w : World) (g : String)
    (h1 : w.env.monorepoRoot = some "") (h2 : w.gitDetect = some g) :
    runMain w = RunResult.exited 1 [] [noRootMessage] none := by
  have hch : chooseRoot w.env.monorepoRoot w.gitDetect = none := by
    rw [h1, h2]
    rfl
  unfold runMain
  rw [hch]

/-- C10 (witness): `MONOREPO_ROOT=""` with detection reporting `/g` still
errors out with the no-root diagnostic. -/
theorem emptyOverride_exit_witness :
    runMain W10 = RunResult.exited 1 [] [noRootMessage] none :=
  emptyOverride_exit W10 "/g" rfl rfl

end ProjPy
